import Mathlib

/-!
Verification of the batchzip service core
(`backend/handlers/core/zip_service.py`, `backend/handlers/core/file_service.py`,
`backend/handlers/compress.py`, `backend/handlers/utils/paginator.py`)
against its specification, via a shallow embedding.

Paths are POSIX paths modelled after Python `pathlib.PurePosixPath`
(normalization drops empty and `"."` segments).  Byte strings are `List Nat`.
All string manipulation is done structurally on `List Char` so that every
definition evaluates by kernel reduction.
-/

namespace Batchzip

/-! ## Python path model (`pathlib.Path` as used by the source) -/

/-- Split a character list on `'/'` (like `"s".split("/")`). -/
def splitSlash : List Char → List (List Char)
  | [] => [[]]
  | c :: rest =>
    if c = '/' then [] :: splitSlash rest
    else
      match splitSlash rest with
      | seg :: more => (c :: seg) :: more
      | [] => [[c]]

/-- Join segments with `'/'` separators. -/
def joinSlash : List (List Char) → List Char
  | [] => []
  | [seg] => seg
  | seg :: rest => seg ++ '/' :: joinSlash rest

/-- The segments of a POSIX path after `pathlib` normalization:
split on `/`, dropping empty segments and `"."` segments. -/
def segsC (s : List Char) : List (List Char) :=
  (splitSlash s).filter (fun t => t ≠ [] && t ≠ ['.'])

/-- The normalized segments of a path string. -/
def segs (s : String) : List (List Char) :=
  segsC s.data

/-- Python `Path(s).is_absolute()` for POSIX paths: the string starts with `/`. -/
def isAbsolute (s : String) : Bool :=
  match s.data with
  | [] => false
  | c :: _ => c = '/'

/-- Python `str(Path(s))` for POSIX paths: the normalized segments joined by `/`,
with a leading `/` when the path is absolute, and `"."` for an empty
relative path. -/
def pathStr (s : String) : String :=
  let body := joinSlash (segs s)
  if isAbsolute s then String.mk ('/' :: body)
  else if body = [] then "." else String.mk body

/-- Whether a character list contains `'.'` immediately followed by `'.'`
(the two-character substring `..`). -/
def hasDotDotChars : List Char → Bool
  | a :: b :: rest => (a = '.' && b = '.') || hasDotDotChars (b :: rest)
  | _ => false

/-- Python's `".." in str(Path(s))`: the normalized path string contains the
two-character substring `..` anywhere. -/
def hasDotDot (s : String) : Bool :=
  hasDotDotChars (pathStr s).data

/-- The path-traversal guard of `ZipService.extract_zip` (zip_service.py,
lines 43-46): an entry is skipped when `Path(member).is_absolute()` holds or
`".."` occurs in `str(Path(member))`. -/
def unsafeMember (member : String) : Bool :=
  isAbsolute member || hasDotDot member

/-- Python `str(Path(d) / m)`: joining a base directory with a member path.
When `m` is absolute, `Path(d) / m` is `Path(m)`; otherwise the joined
path carries `d`'s absoluteness and the concatenated normalized segments. -/
def joinPath (d m : String) : String :=
  if isAbsolute m then pathStr m
  else
    let body := joinSlash (segs d ++ segs m)
    if isAbsolute d then String.mk ('/' :: body)
    else if body = [] then "." else String.mk body

/-- A normalized path `p` lies inside the directory `dest`: same
absoluteness, `dest`'s segments are an initial run of `p`'s, and the
remaining segments contain no parent-directory segment `".."`. -/
def withinDir (dest p : String) : Bool :=
  (isAbsolute p = isAbsolute dest : Bool) &&
    List.isPrefixOf (segs dest) (segs p) &&
    ((segs p).drop (segs dest).length).all (fun t => t ≠ ['.', '.'])

/-! ## ZIP archive model (`ZipService`, zip_service.py)

An archive is its ordered entry list plus the password its entries are
encrypted with, if any.  `zipfile.ZipFile.setpassword` on an archive opened
for writing only sets the default password for *read* operations and does
not encrypt anything that is written (Python's `zipfile` cannot create
encrypted archives), so archives produced by `create_zip_from_directory`
always carry `pwd = none`; `pwd = some p` models externally produced
encrypted containers. -/

/-- One entry of a ZIP container: stored path and uncompressed bytes. -/
structure ZEntry where
  name : String
  content : List Nat
deriving DecidableEq, Repr

/-- A ZIP container: ordered entries and the password protecting them. -/
structure Archive where
  entries : List ZEntry
  pwd : Option String
deriving DecidableEq, Repr

/-- What sits at `zip_path` on disk: a well-formed container or not
(`zipfile.BadZipFile` on open). -/
inductive ZipFileOnDisk
  | invalid
  | valid (a : Archive)
deriving DecidableEq, Repr

/-- The error classes of `ZipService.extract_zip`: `badZip` is
`zipfile.BadZipFile` re-raised as `"无效的ZIP文件"`, `badPassword` is the
`RuntimeError` containing `"Bad password"` re-raised as `"解压密码错误"`,
and `passwordRequired` is the `RuntimeError` raised by `zipfile` when an
encrypted entry is read with no password set, re-raised as the generic
`"解压失败: ..."` message. -/
inductive ExtractErr
  | badZip
  | badPassword
  | passwordRequired
deriving DecidableEq, Repr

/-- Reading one entry through `zip_ref.extract`: an unencrypted entry
ignores any supplied password; an encrypted entry needs exactly the
archive's password. -/
def readEntry (apwd password : Option String) (e : ZEntry) :
    Except ExtractErr (List Nat) :=
  match apwd with
  | none => .ok e.content
  | some p =>
    match password with
    | none => .error .passwordRequired
    | some q => if q = p then .ok e.content else .error .badPassword

/-- The member loop of `ZipService.extract_zip` (zip_service.py, lines
41-50).  `acc` accumulates the `extracted_files` list and `w` the files
written to disk, both in reverse; an exception while reading an entry
aborts the loop, keeping the files already written on disk. -/
def extractLoop (apwd password : Option String) (dest : String) :
    List ZEntry → List String → List (String × List Nat) →
    Except ExtractErr (List String) × List (String × List Nat)
  | [], acc, w => (.ok acc.reverse, w.reverse)
  | e :: rest, acc, w =>
    if unsafeMember e.name then extractLoop apwd password dest rest acc w
    else
      match readEntry apwd password e with
      | .error err => (.error err, w.reverse)
      | .ok content =>
        extractLoop apwd password dest rest (joinPath dest e.name :: acc)
          ((joinPath dest e.name, content) :: w)

/-- Model of `ZipService.extract_zip(zip_path, extract_to, password)` (zip_service.py,
lines 17-63): returns the recorded `extracted_files` list (or the raised
error) together with the files written under `extract_to`. -/
def extract_zip (zf : ZipFileOnDisk) (extract_to : String)
    (password : Option String) :
    Except ExtractErr (List String) × List (String × List Nat) :=
  match zf with
  | .invalid => (.error .badZip, [])
  | .valid a => extractLoop a.pwd password extract_to a.entries [] []

/-- Model of `ZipService.create_zip_from_directory(source_dir, output_path, password,
level)` (zip_service.py, lines 65-110), with the source directory given by
its regular-file listing as produced by `source_path.rglob('*')`: pairs of
path relative to the source root and file bytes.  Each file is written into
the new container under its relative path.  `setpassword` on the
write-mode handle encrypts nothing (see above), so the result is an
unencrypted archive whatever `password` is. -/
def create_zip_from_directory (src : List (String × List Nat))
    (password : Option String) : Archive :=
  ⟨src.map (fun pr => ⟨pr.fst, pr.snd⟩), none⟩

/-! ## `ZipService.rezip_file` (zip_service.py, lines 112-161) -/

/-- The scratch directory name `Path("temp") / f"extract_{uuid4().hex}"`
(zip_service.py, line 131), with the generated hex token as a parameter. -/
def tempDirName (nonce : String) : String :=
  "temp/extract_" ++ nonce

/-- The error classes of `rezip_file`: an exception propagated from
`extract_zip`, the `"解压后没有找到任何文件"` error raised when extraction
yields no files, or the `"创建ZIP文件失败"` error wrapping an underlying
write failure in `create_zip_from_directory`. -/
inductive RezipErr
  | extractFailed (e : ExtractErr)
  | emptyExtraction
  | buildFailed
deriving DecidableEq, Repr

/-- Model of `ZipService.rezip_file(zip_path, output_path, extract_password,
compress_password, level)` over an explicit directory state `dirs` (the
directories existing on disk).  `extract_zip` runs
`Path(extract_to).mkdir(parents=True, exist_ok=True)` before opening the
container, so the scratch directory exists while the body runs, whatever
happens next; the `finally` block removes it when it exists.  `buildFails`
models a filesystem error inside the rebuild step.  Returns the body's
result together with the final directory state. -/
def rezip_file (zf : ZipFileOnDisk) (output_path : String)
    (extract_password compress_password : Option String)
    (nonce : String) (buildFails : Bool) (dirs : List String) :
    Except RezipErr String × List String :=
  let td := tempDirName nonce
  let dirsDuring := td :: dirs
  let body : Except RezipErr String :=
    match (extract_zip zf td extract_password).fst with
    | .error e => .error (.extractFailed e)
    | .ok extracted =>
      if extracted.isEmpty then .error .emptyExtraction
      else if buildFails then .error .buildFailed
      else .ok output_path
  (body, if dirsDuring.contains td then dirsDuring.erase td else dirsDuring)

/-! ## `FileService.upload_single_file` (file_service.py, lines 82-145)

The upload loop reads successive chunks from the source, accumulates the
running byte total, aborts past the size budget, feeds each accepted chunk
to the incremental MD5 state, and writes it to a temporary file; at
end-of-stream the temporary file is renamed to the final path.
`hashlib.md5`'s incremental `update` is modelled by accumulating the
absorbed byte stream, and `hexdigest` by applying an arbitrary digest
function `H` to that stream, so every fact proved here holds for the real
MD5 function in particular. -/

/-- Constant `settings.MAX_FILE_SIZE` (config/base.py): 500 MiB. -/
def Settings.MAX_FILE_SIZE : Nat := 1024 * 1024 * 500

/-- Constant `settings.CHUNK_SIZE` (config/base.py): 5 MiB. -/
def Settings.CHUNK_SIZE : Nat := 1024 * 1024 * 5

/-- Result of the chunk loop: either end-of-stream was reached (total bytes,
bytes written to the temporary file, chunks read), or the running total
went over the budget at the last chunk read (bytes written before the
abort, chunks read). -/
inductive StreamResult
  | done (total : Nat) (written : List Nat) (consumed : Nat)
  | overflow (written : List Nat) (consumed : Nat)
deriving DecidableEq, Repr

/-- The `while True` chunk loop shared verbatim by
`FileService.upload_single_file` and compress.py's `upload_single_file`:
read a chunk (`if not chunk: break`), add its length to the total, raise
when the total exceeds `maxSize`, otherwise hash and write the chunk. -/
def readChunks (maxSize : Nat) :
    List (List Nat) → Nat → List Nat → Nat → StreamResult
  | [], total, buf, k => .done total buf k
  | c :: rest, total, buf, k =>
    if c = [] then .done total buf k
    else
      let t := total + c.length
      if maxSize < t then .overflow buf (k + 1)
      else readChunks maxSize rest t (buf ++ c) (k + 1)

/-- The `HTTPException(400, ...)` detail raised on overflow:
`f"文件 {name} 大小超过限制 {settings.MAX_FILE_SIZE / (1024 * 1024):.2f} MB"`,
with `500.00` the formatted 500 MiB limit. -/
def sizeLimitMsg (filename : String) : String :=
  "文件 " ++ filename ++ " 大小超过限制 500.00 MB"

/-- The dictionary returned by `FileService.upload_single_file` (the
`content_type` and `uploaded_at` fields are environment data and carry no
content). -/
structure UploadDescriptor where
  original_name : String
  saved_name : String
  file_path : String
  size : Nat
  md5 : List Nat
deriving DecidableEq, Repr

/-- The observable outcome of one upload: the returned descriptor or the
raised error, and what is left at the temporary and final paths. -/
structure UploadOutcome where
  result : Except String UploadDescriptor
  temp : Option (List Nat)
  final : Option (List Nat)
  consumed : Nat
deriving Repr

/-- Model of `FileService.upload_single_file(file)` (file_service.py, lines 82-145)
with the `uuid4().hex` token as `nonce` and the source's chunk sequence as
`chunks`.  On overflow the `except` block unlinks the temporary file and
re-raises, so nothing remains at either path; on success the temporary
file is renamed to the final path. -/
def upload_single_file (H : List Nat → List Nat) (filename nonce : String)
    (chunks : List (List Nat)) : UploadOutcome :=
  let uniq := nonce ++ "_" ++ filename
  match readChunks Settings.MAX_FILE_SIZE chunks 0 [] 0 with
  | .overflow _ k =>
    { result := .error (sizeLimitMsg filename), temp := none, final := none,
      consumed := k }
  | .done total buf k =>
    { result := .ok ⟨filename, uniq, "uploads/" ++ uniq, total, H buf⟩,
      temp := none, final := some buf, consumed := k }

/-! ## The `/compress` endpoint (compress.py)

`add_compress_task` is the route actually wired in routes.py; it uses the
module-level `validate_file` / `upload_single_file` defined in compress.py
itself (`FileService.validate_file_queue` and its batch checks are never
invoked by any route). -/

namespace Compress

/-- Constant `MAX_FILE_SIZE` (compress.py, line 18): `1024 * 1024 * 100` — 100 MiB
(the adjacent comment says 500MB; the value is 100 MiB). -/
def MAX_FILE_SIZE : Nat := 1024 * 1024 * 100

/-- Constant `ALLOWED_FILE_TYPES` (compress.py, lines 22-25). -/
def ALLOWED_FILE_TYPES : List String :=
  [".zip", ".tar.gz", ".rar", ".tar", ".tar.bz", ".7z"]

end Compress

/-- Python `PurePath.suffix`: take the final path component `name`, find the
last `'.'` at index `i`, and return `name[i:]` when `0 < i < len(name) - 1`,
else the empty string. -/
def pySuffix (filename : String) : String :=
  let name := (segs filename).getLastD []
  match name.reverse.findIdx? (fun c => c = '.') with
  | none => ""
  | some j =>
    let i := name.length - 1 - j
    if 0 < i ∧ i < name.length - 1 then String.mk (name.drop i) else ""

/-- Model of `get_file_extension(filename)` (compress.py, lines 35-36, identical to
`FileService.get_file_extension`, file_service.py, lines 74-81):
`Path(filename).suffix.lower()`. -/
def get_file_extension (filename : String) : String :=
  String.mk ((pySuffix filename).data.map Char.toLower)

/-- One `UploadFile` as the endpoint sees it: the client-supplied filename
(`""` models a missing name), the size advertised by the framework, and the
successive results of `file.read(CHUNK_SIZE)`. -/
structure UFile where
  filename : String
  size : Nat
  chunks : List (List Nat)
deriving DecidableEq, Repr

namespace Compress

/-- Model of `validate_file(file)` (compress.py, lines 127-143): empty-file check
(missing name or advertised size 0), advertised-size cap, extension
allow-list; `none` means valid, `some msg` the `HTTPException(400)` detail.
(The source suffixes the type error with the allow-list joined from a
`set`, whose order Python does not fix; the message is modelled up to that
suffix.) -/
def validate_file (f : UFile) : Option String :=
  if f.filename = "" || f.size = 0 then
    some ("检测到空文件: " ++ (if f.filename = "" then "无文件名" else f.filename))
  else if MAX_FILE_SIZE < f.size then
    some ("文件 " ++ f.filename ++ " 大小超过限制 100.00 MB")
  else if (ALLOWED_FILE_TYPES.contains (get_file_extension f.filename)) = false then
    some ("不支持的文件类型: " ++ get_file_extension f.filename)
  else none

/-- Model of `upload_single_file(file)` (compress.py, lines 146-196): same chunk
loop as the `FileService` version but with compress.py's 100 MiB cap;
commits the final file to `disk` on success, removes the temporary file
and raises on overflow.  Returns `(saved_name, new disk)`. -/
def upload_single_file (f : UFile) (nonce : String)
    (disk : List (String × List Nat)) :
    Except String (String × List (String × List Nat)) :=
  let uniq := nonce ++ "_" ++ f.filename
  match readChunks MAX_FILE_SIZE f.chunks 0 [] 0 with
  | .overflow _ _ =>
    .error ("文件 " ++ f.filename ++ " 大小超过限制 100.00 MB")
  | .done _ buf _ =>
    .ok (uniq, disk ++ [("uploads/" ++ uniq, buf)])

/-- The `for file in files` body of `add_compress_task` (compress.py, lines
101-114): validate, then upload, per file; the first `HTTPException` aborts
the batch and is re-raised without cleaning the files already committed
(`except HTTPException: raise`). -/
def taskLoop : List UFile → List String → List String →
    List (String × List Nat) →
    Except (Nat × String) (List String) × List (String × List Nat)
  | [], _, acc, disk => (.ok acc.reverse, disk)
  | f :: rest, nonces, acc, disk =>
    match validate_file f with
    | some err => (.error (400, err), disk)
    | none =>
      match upload_single_file f (nonces.headD "") disk with
      | .error msg => (.error (400, msg), disk)
      | .ok (uniq, disk') => taskLoop rest nonces.tail (uniq :: acc) disk'

/-- Model of `add_compress_task(files)` (compress.py, lines 87-125) with the
generated `uuid4().hex` tokens as `nonces`, over an initially empty upload
directory: `400` on an empty batch, otherwise the interleaved
validate-then-upload loop.  Returns the per-file `saved_name`s (or the
raised `HTTPException`) and the upload directory's final contents. -/
def add_compress_task (files : List UFile) (nonces : List String) :
    Except (Nat × String) (List String) × List (String × List Nat) :=
  if files.isEmpty then (.error (400, "没有上传任何文件"), [])
  else taskLoop files nonces [] []

/-- The files `add_compress_task` commits for a prefix of validated,
successfully uploaded files. -/
def committedFiles : List UFile → List String → List (String × List Nat)
  | [], _ => []
  | f :: rest, nonces =>
    ("uploads/" ++ nonces.headD "" ++ "_" ++ f.filename, f.chunks.flatten)
      :: committedFiles rest nonces.tail

end Compress

/-! ## `paginator_list` (utils/paginator.py, lines 14-24) -/

/-- Model of `paginator_list(data_list, page, page_size)`: the slice
`data_list[offset : offset + limit]` with `offset = (page - 1) * page_size`
and `limit = page_size`; defaults `page = 1`, `page_size = 10`. -/
def paginator_list (data_list : List α) (page : Nat := 1)
    (page_size : Nat := 10) : List α :=
  let offset := (page - 1) * page_size
  (data_list.drop offset).take page_size

/-- The total byte count of a chunk sequence. -/
def sumLen (chunks : List (List Nat)) : Nat :=
  (chunks.map List.length).sum

/-! ## Sanity checks on the path model -/

example : unsafeMember "../../etc/passwd" = true := by decide
example : unsafeMember "/etc/passwd" = true := by decide
example : unsafeMember "report..final.txt" = true := by decide
example : unsafeMember "docs/a.txt" = false := by decide
example : joinPath "out" "docs/a.txt" = "out/docs/a.txt" := by decide
example : withinDir "out" "out/docs/a.txt" = true := by decide
example : withinDir "out" "elsewhere/a.txt" = false := by decide

/-! ## Path lemmas -/

theorem splitSlash_ne_nil (s : List Char) : splitSlash s ≠ [] := by
  cases s with
  | nil => simp [splitSlash]
  | cons c rest =>
    simp only [splitSlash]
    split
    · simp
    · split <;> simp

theorem mem_splitSlash_no_slash :
    ∀ (s : List Char), ∀ seg ∈ splitSlash s, '/' ∉ seg := by
  intro s
  induction s with
  | nil =>
    intro seg h
    simp [splitSlash] at h
    simp [h]
  | cons c rest ih =>
    intro seg h
    by_cases hc : c = '/'
    · subst hc
      simp [splitSlash] at h
      rcases h with h | h
      · simp [h]
      · exact ih seg h
    · simp only [splitSlash, if_neg hc] at h
      rcases hsp : splitSlash rest with _ | ⟨s0, more⟩
      · exact absurd hsp (splitSlash_ne_nil rest)
      · rw [hsp] at h
        rcases List.mem_cons.mp h with h1 | h1
        · subst h1
          intro hmem
          rcases List.mem_cons.mp hmem with h2 | h2
          · exact hc h2.symm
          · exact ih s0 (hsp ▸ List.mem_cons_self _ _) h2
        · exact ih seg (hsp ▸ List.mem_cons_of_mem _ h1)

theorem splitSlash_single (a : List Char) (h : '/' ∉ a) :
    splitSlash a = [a] := by
  induction a with
  | nil => rfl
  | cons c rest ih =>
    have hc : c ≠ '/' := fun hh => h (hh ▸ List.mem_cons_self _ _)
    have hr : '/' ∉ rest := fun hh => h (List.mem_cons_of_mem _ hh)
    simp only [splitSlash, if_neg hc, ih hr]

theorem splitSlash_append (a b : List Char) (h : '/' ∉ a) :
    splitSlash (a ++ '/' :: b) = a :: splitSlash b := by
  induction a with
  | nil => simp [splitSlash]
  | cons c rest ih =>
    have hc : c ≠ '/' := fun hh => h (hh ▸ List.mem_cons_self _ _)
    have hr : '/' ∉ rest := fun hh => h (List.mem_cons_of_mem _ hh)
    simp only [List.cons_append, splitSlash, if_neg hc, List.append_eq, ih hr]

theorem splitSlash_joinSlash (L : List (List Char))
    (h : ∀ seg ∈ L, '/' ∉ seg) (hne : L ≠ []) :
    splitSlash (joinSlash L) = L := by
  induction L with
  | nil => exact absurd rfl hne
  | cons seg rest ih =>
    cases rest with
    | nil => exact splitSlash_single seg (h seg (List.mem_cons_self _ _))
    | cons s1 r1 =>
      have h1 : '/' ∉ seg := h seg (List.mem_cons_self _ _)
      have h2 : ∀ t ∈ s1 :: r1, '/' ∉ t :=
        fun t ht => h t (List.mem_cons_of_mem _ ht)
      show splitSlash (seg ++ '/' :: joinSlash (s1 :: r1)) = _
      rw [splitSlash_append _ _ h1, ih h2 (by simp)]

theorem segsC_joinSlash (L : List (List Char))
    (h : ∀ seg ∈ L, seg ≠ [] ∧ seg ≠ ['.'] ∧ '/' ∉ seg) :
    segsC (joinSlash L) = L := by
  cases L with
  | nil => rfl
  | cons seg rest =>
    unfold segsC
    rw [splitSlash_joinSlash _ (fun t ht => (h t ht).2.2) (by simp)]
    rw [List.filter_eq_self]
    intro t ht
    have := h t ht
    simp [this.1, this.2.1]

theorem mem_segsC (s : List Char) (seg : List Char) (h : seg ∈ segsC s) :
    seg ≠ [] ∧ seg ≠ ['.'] ∧ '/' ∉ seg := by
  unfold segsC at h
  have h1 := List.of_mem_filter h
  have h2 := List.mem_of_mem_filter h
  simp only [Bool.and_eq_true, decide_eq_true_eq] at h1
  exact ⟨h1.1, h1.2, mem_splitSlash_no_slash s seg h2⟩

theorem hasDotDotChars_suffix (a b : List Char)
    (h : hasDotDotChars b = true) : hasDotDotChars (a ++ b) = true := by
  induction a with
  | nil => simpa using h
  | cons c rest ih =>
    rw [List.cons_append]
    rcases hr : rest ++ b with _ | ⟨d, tl⟩
    · rcases b with _ | ⟨x, xs⟩
      · simp [hasDotDotChars] at h
      · simp at hr
    · rw [hasDotDotChars]
      rw [hr] at ih
      simp [ih]

theorem hasDotDotChars_front (a b : List Char)
    (h : hasDotDotChars a = true) : hasDotDotChars (a ++ b) = true := by
  induction a with
  | nil => simp [hasDotDotChars] at h
  | cons c rest ih =>
    rcases rest with _ | ⟨d, tl⟩
    · simp [hasDotDotChars] at h
    · rw [hasDotDotChars, Bool.or_eq_true] at h
      rw [List.cons_append, List.cons_append, hasDotDotChars]
      rcases h with h | h
      · simp [h]
      · rw [← List.cons_append]
        have := ih h
        rw [List.cons_append] at this
        simp [this]

theorem hasDotDotChars_joinSlash_of_mem (L : List (List Char))
    (seg : List Char) (hm : seg ∈ L) (h : hasDotDotChars seg = true) :
    hasDotDotChars (joinSlash L) = true := by
  induction L with
  | nil => simp at hm
  | cons s0 rest ih =>
    rcases List.mem_cons.mp hm with h1 | h1
    · subst h1
      cases rest with
      | nil => exact h
      | cons s1 r1 =>
        show hasDotDotChars (seg ++ '/' :: joinSlash (s1 :: r1)) = true
        exact hasDotDotChars_front _ _ h
    · cases rest with
      | nil => simp at h1
      | cons s1 r1 =>
        show hasDotDotChars (s0 ++ '/' :: joinSlash (s1 :: r1)) = true
        have := ih h1
        have h2 : hasDotDotChars ('/' :: joinSlash (s1 :: r1)) = true := by
          rcases hj : joinSlash (s1 :: r1) with _ | ⟨x, xs⟩
          · rw [hj] at this; simp [hasDotDotChars] at this
          · rw [hasDotDotChars]
            rw [hj] at this
            simp [this]
        exact hasDotDotChars_suffix _ _ h2

theorem isAbsolute_mk_cons (c : Char) (cs : List Char) :
    isAbsolute (String.mk (c :: cs)) = decide (c = '/') := rfl

theorem joinSlash_eq_nil (L : List (List Char))
    (h : ∀ seg ∈ L, seg ≠ []) (hj : joinSlash L = []) : L = [] := by
  cases L with
  | nil => rfl
  | cons seg rest =>
    cases rest with
    | nil => exact absurd hj (h seg (List.mem_cons_self _ _))
    | cons s1 r1 =>
      exact absurd hj (by simp [joinSlash])

theorem isAbsolute_mk_joinSlash (L : List (List Char))
    (h : ∀ seg ∈ L, seg ≠ [] ∧ '/' ∉ seg) :
    isAbsolute (String.mk (joinSlash L)) = false := by
  cases L with
  | nil => rfl
  | cons seg rest =>
    obtain ⟨hne, hsl⟩ := h seg (List.mem_cons_self _ _)
    cases seg with
    | nil => exact absurd rfl hne
    | cons c cs =>
      have hc : c ≠ '/' := fun hh => hsl (hh ▸ List.mem_cons_self _ _)
      cases rest with
      | nil =>
        show isAbsolute (String.mk (c :: cs)) = false
        simp [isAbsolute_mk_cons, hc]
      | cons s1 r1 =>
        show isAbsolute (String.mk ((c :: cs) ++ '/' :: joinSlash (s1 :: r1))) = false
        rw [List.cons_append, isAbsolute_mk_cons]
        simp [hc]

theorem segsC_cons_slash (cs : List Char) : segsC ('/' :: cs) = segsC cs := by
  unfold segsC
  have : splitSlash ('/' :: cs) = [] :: splitSlash cs := by
    simp [splitSlash]
  rw [this, List.filter_cons]
  simp

theorem segs_mem_good (s : String) :
    ∀ seg ∈ segs s, seg ≠ [] ∧ seg ≠ ['.'] ∧ '/' ∉ seg :=
  fun seg h => mem_segsC s.data seg h

/-- The decomposition of `Path(d) / m` for a relative member `m`: the joined
path keeps `d`'s absoluteness and its normalized segments are `d`'s
followed by `m`'s. -/
theorem joinPath_parts (d m : String) (hm : isAbsolute m = false) :
    isAbsolute (joinPath d m) = isAbsolute d ∧
      segs (joinPath d m) = segs d ++ segs m := by
  have hgood : ∀ seg ∈ segs d ++ segs m, seg ≠ [] ∧ seg ≠ ['.'] ∧ '/' ∉ seg := by
    intro seg hseg
    rcases List.mem_append.mp hseg with h | h
    · exact segs_mem_good d seg h
    · exact segs_mem_good m seg h
  unfold joinPath
  rw [hm]
  simp only [Bool.false_eq_true, if_false]
  by_cases hd : isAbsolute d
  · rw [if_pos hd]
    constructor
    · rw [isAbsolute_mk_cons]
      simp [hd]
    · show segsC ('/' :: joinSlash (segs d ++ segs m)) = _
      rw [segsC_cons_slash, segsC_joinSlash _ hgood]
  · rw [if_neg hd]
    by_cases hb : joinSlash (segs d ++ segs m) = []
    · rw [if_pos hb]
      have hLnil : segs d ++ segs m = [] :=
        joinSlash_eq_nil _ (fun seg h => (hgood seg h).1) hb
      have hd' : isAbsolute d = false := by simpa using hd
      constructor
      · rw [hd']
        rfl
      · rw [hLnil]
        rfl
    · rw [if_neg hb]
      constructor
      · rw [isAbsolute_mk_joinSlash _ (fun seg h => ⟨(hgood seg h).1, (hgood seg h).2.2⟩)]
        simp [Bool.not_eq_true] at hd
        rw [hd]
      · exact segsC_joinSlash _ hgood

/-- A member accepted by the traversal guard has no `..` anywhere in its
normalized segments. -/
theorem segs_no_dotdot (m : String) (hm : isAbsolute m = false)
    (h : hasDotDot m = false) :
    ∀ seg ∈ segs m, hasDotDotChars seg = false := by
  intro seg hseg
  by_contra hdd
  rw [Bool.not_eq_false] at hdd
  unfold hasDotDot pathStr at h
  rw [hm] at h
  simp only [Bool.false_eq_true, if_false] at h
  by_cases hb : joinSlash (segs m) = []
  · have hLnil : segs m = [] :=
      joinSlash_eq_nil _ (fun t ht => (segs_mem_good m t ht).1) hb
    rw [hLnil] at hseg
    simp at hseg
  · rw [if_neg hb] at h
    have := hasDotDotChars_joinSlash_of_mem (segs m) seg hseg hdd
    rw [show (String.mk (joinSlash (segs m))).data = joinSlash (segs m) from rfl] at h
    rw [this] at h
    simp at h

theorem isPrefixOf_append_self (l r : List (List Char)) :
    List.isPrefixOf l (l ++ r) = true := by
  induction l with
  | nil => simp [List.isPrefixOf]
  | cons x xs ih => simp [List.isPrefixOf, ih]

/-- The heart of the traversal guard: the expansion target of an accepted
member stays inside the destination directory. -/
theorem withinDir_joinPath (dest m : String)
    (h : unsafeMember m = false) : withinDir dest (joinPath dest m) = true := by
  have habs : isAbsolute m = false := by
    unfold unsafeMember at h
    exact (Bool.or_eq_false_iff.mp h).1
  have hdd : hasDotDot m = false := by
    unfold unsafeMember at h
    exact (Bool.or_eq_false_iff.mp h).2
  obtain ⟨h1, h2⟩ := joinPath_parts dest m habs
  unfold withinDir
  rw [h1, h2]
  simp only [Bool.and_eq_true, decide_eq_true_eq]
  refine ⟨⟨trivial, isPrefixOf_append_self _ _⟩, ?_⟩
  rw [List.drop_left]
  rw [List.all_eq_true]
  intro seg hseg
  have := segs_no_dotdot m habs hdd seg hseg
  simp only [decide_eq_true_eq]
  intro hcon
  rw [hcon] at this
  simp [hasDotDotChars] at this

/-! ## Extraction loop lemmas -/

theorem extractLoop_filter (apwd password : Option String) (dest : String) :
    ∀ (entries : List ZEntry) (acc : List String)
      (w : List (String × List Nat)),
      extractLoop apwd password dest
          (entries.filter (fun e => !unsafeMember e.name)) acc w =
        extractLoop apwd password dest entries acc w := by
  intro entries
  induction entries with
  | nil => intro acc w; rfl
  | cons e rest ih =>
    intro acc w
    by_cases hu : unsafeMember e.name = true
    · rw [List.filter_cons_of_neg (by simp [hu])]
      rw [ih]
      conv_rhs => rw [extractLoop]
      rw [if_pos hu]
    · have hu' : (!unsafeMember e.name) = true := by simp [hu]
      rw [show List.filter (fun e => !unsafeMember e.name) (e :: rest) =
          e :: List.filter (fun e => !unsafeMember e.name) rest by
        simp [List.filter_cons, hu']]
      conv_lhs => rw [extractLoop]
      conv_rhs => rw [extractLoop]
      rw [if_neg hu, if_neg hu]
      cases readEntry apwd password e with
      | error err => rfl
      | ok content => exact ih _ _

theorem extractLoop_ok_mem (apwd password : Option String) (dest : String) :
    ∀ (entries : List ZEntry) (acc : List String)
      (w : List (String × List Nat)) (lst : List String),
      (extractLoop apwd password dest entries acc w).fst = .ok lst →
      ∀ q ∈ lst, q ∈ acc ∨
        ∃ e, e ∈ entries ∧ unsafeMember e.name = false ∧
          q = joinPath dest e.name := by
  intro entries
  induction entries with
  | nil =>
    intro acc w lst h q hq
    simp only [extractLoop, Except.ok.injEq, Prod.fst] at h
    subst h
    exact Or.inl (List.mem_reverse.mp hq)
  | cons e rest ih =>
    intro acc w lst h q hq
    rw [extractLoop] at h
    by_cases hu : unsafeMember e.name = true
    · rw [if_pos hu] at h
      rcases ih _ _ _ h q hq with h1 | ⟨e', he', hu', hq'⟩
      · exact Or.inl h1
      · exact Or.inr ⟨e', List.mem_cons_of_mem _ he', hu', hq'⟩
    · rw [if_neg hu] at h
      have hu' : unsafeMember e.name = false := by simpa using hu
      cases hre : readEntry apwd password e with
      | error err => rw [hre] at h; simp at h
      | ok content =>
        rw [hre] at h
        rcases ih _ _ _ h q hq with h1 | ⟨e', he', hu2, hq'⟩
        · rcases List.mem_cons.mp h1 with h2 | h2
          · exact Or.inr ⟨e, List.mem_cons_self _ _, hu', h2⟩
          · exact Or.inl h2
        · exact Or.inr ⟨e', List.mem_cons_of_mem _ he', hu2, hq'⟩

theorem extractLoop_writes (apwd password : Option String) (dest : String) :
    ∀ (entries : List ZEntry) (acc : List String)
      (w : List (String × List Nat)) (p : String) (c : List Nat),
      (p, c) ∈ (extractLoop apwd password dest entries acc w).snd →
      (p, c) ∈ w ∨
        ∃ e, e ∈ entries ∧ unsafeMember e.name = false ∧
          p = joinPath dest e.name := by
  intro entries
  induction entries with
  | nil =>
    intro acc w p c h
    simp only [extractLoop, Prod.snd] at h
    exact Or.inl (List.mem_reverse.mp h)
  | cons e rest ih =>
    intro acc w p c h
    rw [extractLoop] at h
    by_cases hu : unsafeMember e.name = true
    · rw [if_pos hu] at h
      rcases ih _ _ _ _ h with h1 | ⟨e', he', hu', hp'⟩
      · exact Or.inl h1
      · exact Or.inr ⟨e', List.mem_cons_of_mem _ he', hu', hp'⟩
    · rw [if_neg hu] at h
      have hu' : unsafeMember e.name = false := by simpa using hu
      cases hre : readEntry apwd password e with
      | error err =>
        rw [hre] at h
        exact Or.inl (List.mem_reverse.mp h)
      | ok content =>
        rw [hre] at h
        rcases ih _ _ _ _ h with h1 | ⟨e', he', hu2, hp'⟩
        · rcases List.mem_cons.mp h1 with h2 | h2
          · exact Or.inr ⟨e, List.mem_cons_self _ _, hu',
              congrArg Prod.fst h2⟩
          · exact Or.inl h2
        · exact Or.inr ⟨e', List.mem_cons_of_mem _ he', hu2, hp'⟩

theorem extractLoop_insert_unsafe (apwd password : Option String)
    (dest : String) (e : ZEntry) (hu : unsafeMember e.name = true) :
    ∀ (pre post : List ZEntry) (acc : List String)
      (w : List (String × List Nat)),
      extractLoop apwd password dest (pre ++ e :: post) acc w =
        extractLoop apwd password dest (pre ++ post) acc w := by
  intro pre
  induction pre with
  | nil =>
    intro post acc w
    show extractLoop apwd password dest (e :: post) acc w = _
    rw [extractLoop, if_pos hu]
    rfl
  | cons e0 rest ih =>
    intro post acc w
    rw [List.cons_append, List.cons_append, extractLoop, extractLoop]
    by_cases h0 : unsafeMember e0.name = true
    · rw [if_pos h0, if_pos h0, ih]
    · rw [if_neg h0, if_neg h0]
      cases readEntry apwd password e0 with
      | error err => rfl
      | ok content => exact ih _ _ _

theorem extractLoop_all_safe (password : Option String) (dest : String) :
    ∀ (entries : List ZEntry) (acc : List String)
      (w : List (String × List Nat)),
      (∀ e ∈ entries, unsafeMember e.name = false) →
      extractLoop none password dest entries acc w =
        (.ok (acc.reverse ++ entries.map (fun e => joinPath dest e.name)),
          w.reverse ++
            entries.map (fun e => (joinPath dest e.name, e.content))) := by
  intro entries
  induction entries with
  | nil =>
    intro acc w _
    simp [extractLoop]
  | cons e rest ih =>
    intro acc w hsafe
    rw [extractLoop, if_neg (by simp [hsafe e (List.mem_cons_self _ _)])]
    show extractLoop none password dest rest _ _ = _
    rw [ih _ _ (fun x hx => hsafe x (List.mem_cons_of_mem _ hx))]
    simp

/-! ## Claim theorems -/

/-- C1.  For every container and destination, `ZipService.extract_zip`
skips — without raising — every entry whose stored path is absolute or
contains `..` after normalization: the run is identical to the run on the
container with those entries removed, every path in the returned
`extracted_files` list originates from an entry accepted by the guard, and
every file written lands inside the destination directory. -/
theorem extract_zip_traversal_guard (a : Archive) (dest : String)
    (pwd : Option String) :
    extract_zip (.valid a) dest pwd =
        extract_zip
          (.valid ⟨a.entries.filter (fun e => !unsafeMember e.name), a.pwd⟩)
          dest pwd ∧
      (∀ lst, (extract_zip (.valid a) dest pwd).fst = .ok lst →
        ∀ q ∈ lst, ∃ e, e ∈ a.entries ∧ unsafeMember e.name = false ∧
          q = joinPath dest e.name) ∧
      (∀ p c, (p, c) ∈ (extract_zip (.valid a) dest pwd).snd →
        withinDir dest p = true) := by
  refine ⟨(extractLoop_filter a.pwd pwd dest a.entries [] []).symm, ?_, ?_⟩
  · intro lst h q hq
    rcases extractLoop_ok_mem a.pwd pwd dest a.entries [] [] lst h q hq with
      h1 | h1
    · simp at h1
    · exact h1
  · intro p c h
    rcases extractLoop_writes a.pwd pwd dest a.entries [] [] p c h with
      h1 | ⟨e, _, hu, hp⟩
    · simp at h1
    · exact hp ▸ withinDir_joinPath dest e.name hu

/-- Witness for C1 at a concrete container holding `../../etc/passwd` and
`ok.txt`: the traversal entry is excluded and the written file stays inside
the destination. -/
theorem extract_zip_traversal_guard_witness :
    withinDir "out" "out/ok.txt" = true :=
  (extract_zip_traversal_guard
      ⟨[⟨"../../etc/passwd", [7]⟩, ⟨"ok.txt", [1]⟩], none⟩ "out" none).2.2
    "out/ok.txt" [1] (by decide)

/-- C10.  The guard's `".." in str(member_path)` test is a plain substring
test: inserting an entry whose name merely contains consecutive dots — even
a harmless filename such as `report..final.txt` with no traversal segment —
leaves the extraction result (returned list and written files) exactly as
if the entry were absent, so the entry is skipped and excluded. -/
theorem extract_zip_dotdot_substring_skipped (apwd pwd : Option String)
    (dest : String) (pre post : List ZEntry) (e : ZEntry)
    (h : hasDotDot e.name = true) :
    unsafeMember e.name = true ∧
      extract_zip (.valid ⟨pre ++ e :: post, apwd⟩) dest pwd =
        extract_zip (.valid ⟨pre ++ post, apwd⟩) dest pwd := by
  have hu : unsafeMember e.name = true := by
    unfold unsafeMember
    simp [h]
  exact ⟨hu, extractLoop_insert_unsafe apwd pwd dest e hu pre post [] []⟩

/-- Witness for C10 at `report..final.txt`: the entry is skipped and the
surrounding entries extract as if it were absent. -/
theorem extract_zip_dotdot_substring_skipped_witness :
    unsafeMember "report..final.txt" = true ∧
      extract_zip
          (.valid ⟨[⟨"report..final.txt", [9]⟩, ⟨"ok.txt", [1]⟩], none⟩)
          "out" none =
        extract_zip (.valid ⟨[⟨"ok.txt", [1]⟩], none⟩) "out" none :=
  extract_zip_dotdot_substring_skipped none none "out" []
    [⟨"ok.txt", [1]⟩] ⟨"report..final.txt", [9]⟩ (by decide)

/-- C5 (amended).  Building a container from a directory listing and
extracting it with the same password reproduces, in order, exactly the
source's relative paths (each expanded under the destination) and
byte-identical contents — provided no relative path trips the traversal
guard (no `..` substring).  (The unamended claim fails: see the
counterexample with a file named `a..b`.) -/
theorem extract_create_roundtrip (src : List (String × List Nat))
    (dest : String) (p : Option String)
    (hsafe : ∀ pr ∈ src, unsafeMember pr.fst = false) :
    extract_zip (.valid (create_zip_from_directory src p)) dest p =
      (.ok (src.map fun pr => joinPath dest pr.fst),
        src.map fun pr => (joinPath dest pr.fst, pr.snd)) := by
  show extractLoop none p dest (src.map fun pr => ⟨pr.fst, pr.snd⟩) [] [] = _
  rw [extractLoop_all_safe p dest _ [] []
    (by
      intro e he
      rcases List.mem_map.mp he with ⟨pr, hpr, rfl⟩
      exact hsafe pr hpr)]
  simp [List.map_map, Function.comp]

/-- Witness for C5 at a two-file directory: the round trip returns both
files under the destination with their exact bytes. -/
theorem extract_create_roundtrip_witness :
    extract_zip
        (.valid (create_zip_from_directory
          [("docs/a.txt", [1, 2]), ("b.bin", [3])] (some "p")))
        "fresh" (some "p") =
      (.ok ["fresh/docs/a.txt", "fresh/b.bin"],
        [("fresh/docs/a.txt", [1, 2]), ("fresh/b.bin", [3])]) := by
  have h := extract_create_roundtrip
    [("docs/a.txt", [1, 2]), ("b.bin", [3])] "fresh" (some "p") (by decide)
  rw [h]
  rfl

/-- C5 counterexample.  A directory containing a file named `a..b` is
zipped in full, but extraction skips the entry (its name contains the `..`
substring): the extracted list and the written files are empty, so the
round trip does not reproduce the source's one-file listing. -/
theorem extract_create_roundtrip_counterexample :
    extract_zip (.valid (create_zip_from_directory [("a..b", [0])] (some "p")))
        "out" (some "p") = (.ok [], []) ∧
      ([("a..b", [0])] : List (String × List Nat)) ≠ [] :=
  ⟨rfl, by decide⟩

/-- C6 (code bug).  A container built with `compress_password = "p"` is not
password-protected at all: `setpassword` on a write-mode `ZipFile` encrypts
nothing, contradicting the source's own comment
`如果设置了密码，添加密码保护`.  Extraction with no password (and likewise
with any password) succeeds instead of failing with the password-mismatch
error. -/
theorem create_zip_password_not_enforced :
    (create_zip_from_directory [("a.txt", [1])] (some "p")).pwd = none ∧
      (extract_zip
          (.valid (create_zip_from_directory [("a.txt", [1])] (some "p")))
          "out" none).fst = .ok ["out/a.txt"] ∧
      (extract_zip
          (.valid (create_zip_from_directory [("a.txt", [1])] (some "p")))
          "out" (some "wrong")).fst = .ok ["out/a.txt"] :=
  ⟨rfl, rfl, rfl⟩

/-! ## Chunk-loop lemmas -/

theorem readChunks_done (maxSize : Nat) :
    ∀ (chunks : List (List Nat)) (total : Nat) (buf : List Nat) (k : Nat),
      (∀ c ∈ chunks, c ≠ []) → total + sumLen chunks ≤ maxSize →
      readChunks maxSize chunks total buf k =
        .done (total + sumLen chunks) (buf ++ chunks.flatten)
          (k + chunks.length) := by
  intro chunks
  induction chunks with
  | nil =>
    intro total buf k _ _
    simp [readChunks, sumLen]
  | cons c rest ih =>
    intro total buf k hne hle
    rw [readChunks, if_neg (by exact hne c (List.mem_cons_self _ _))]
    have hsum : sumLen (c :: rest) = c.length + sumLen rest := by
      simp [sumLen]
    rw [if_neg (by omega)]
    rw [ih (total + c.length) (buf ++ c) (k + 1)
      (fun x hx => hne x (List.mem_cons_of_mem _ hx)) (by omega)]
    simp [hsum]
    constructor
    · omega
    · omega

theorem readChunks_overflow (maxSize : Nat) :
    ∀ (chunks : List (List Nat)) (total : Nat) (buf : List Nat) (k : Nat),
      (∀ c ∈ chunks, c ≠ []) → total ≤ maxSize →
      maxSize < total + sumLen chunks →
      ∃ preC c' postC, chunks = preC ++ c' :: postC ∧
        readChunks maxSize chunks total buf k =
          .overflow (buf ++ preC.flatten) (k + preC.length + 1) ∧
        total + sumLen preC ≤ maxSize ∧
        maxSize < total + sumLen preC + c'.length := by
  intro chunks
  induction chunks with
  | nil =>
    intro total buf k _ hle hbig
    simp [sumLen] at hbig
    omega
  | cons c rest ih =>
    intro total buf k hne hle hbig
    have hcne : c ≠ [] := hne c (List.mem_cons_self _ _)
    by_cases hov : maxSize < total + c.length
    · refine ⟨[], c, rest, rfl, ?_, ?_, ?_⟩
      · rw [readChunks, if_neg hcne, if_pos hov]
        simp
      · simpa [sumLen] using hle
      · simpa [sumLen] using hov
    · have hle' : total + c.length ≤ maxSize := by omega
      have hbig' : maxSize < (total + c.length) + sumLen rest := by
        simp [sumLen] at hbig ⊢
        omega
      obtain ⟨preC, c', postC, hsplit, hrun, h1, h2⟩ :=
        ih (total + c.length) (buf ++ c) (k + 1)
          (fun x hx => hne x (List.mem_cons_of_mem _ hx)) hle' hbig'
      refine ⟨c :: preC, c', postC, by rw [hsplit]; rfl, ?_, ?_, ?_⟩
      · rw [readChunks, if_neg hcne, if_neg hov, hrun]
        simp only [List.flatten_cons, List.append_assoc, List.length_cons]
        congr 1
        omega
      · simp only [sumLen, List.map_cons, List.sum_cons] at h1 ⊢
        omega
      · simp only [sumLen, List.map_cons, List.sum_cons] at h2 ⊢
        omega

/-- C3.  An upload whose source exceeds the 500 MiB budget aborts at the
first chunk that pushes the running total over it: the raised error names
the limit, the partial temporary file is deleted, and nothing ever appears
at the final path. -/
theorem upload_single_file_overflow_aborts (H : List Nat → List Nat)
    (filename nonce : String) (chunks : List (List Nat))
    (hne : ∀ c ∈ chunks, c ≠ [])
    (hbig : Settings.MAX_FILE_SIZE < sumLen chunks) :
    ∃ preC c' postC, chunks = preC ++ c' :: postC ∧
      sumLen preC ≤ Settings.MAX_FILE_SIZE ∧
      Settings.MAX_FILE_SIZE < sumLen preC + c'.length ∧
      (upload_single_file H filename nonce chunks).result =
        .error (sizeLimitMsg filename) ∧
      (upload_single_file H filename nonce chunks).temp = none ∧
      (upload_single_file H filename nonce chunks).final = none ∧
      (upload_single_file H filename nonce chunks).consumed =
        preC.length + 1 := by
  obtain ⟨preC, c', postC, hsplit, hrun, h1, h2⟩ :=
    readChunks_overflow Settings.MAX_FILE_SIZE chunks 0 [] 0 hne
      (Nat.zero_le _) (by simpa using hbig)
  refine ⟨preC, c', postC, hsplit, by simpa using h1, by simpa using h2,
    ?_, ?_, ?_, ?_⟩ <;>
    simp [upload_single_file, hrun]

/-- Witness for C3: a 2-chunk stream totalling 600 MiB aborts with nothing
left at either path. -/
theorem upload_single_file_overflow_aborts_witness :
    (upload_single_file (fun bs => bs) "big.zip" "n1"
        [List.replicate (1024 * 1024 * 400) 0,
          List.replicate (1024 * 1024 * 200) 1]).temp = none ∧
      (upload_single_file (fun bs => bs) "big.zip" "n1"
        [List.replicate (1024 * 1024 * 400) 0,
          List.replicate (1024 * 1024 * 200) 1]).final = none := by
  obtain ⟨preC, c', postC, _, _, _, _, htemp, hfinal, _⟩ :=
    upload_single_file_overflow_aborts (fun bs => bs) "big.zip" "n1"
      [List.replicate (1024 * 1024 * 400) 0,
        List.replicate (1024 * 1024 * 200) 1]
      (by
        intro c hc hnil
        have hlen := congrArg List.length hnil
        simp only [List.mem_cons, List.not_mem_nil, or_false] at hc
        rcases hc with hc | hc <;> rw [hc] at hlen <;>
          simp only [List.length_replicate, List.length_nil] at hlen <;>
          omega)
      (by
        simp only [sumLen, Settings.MAX_FILE_SIZE, List.map_cons,
          List.map_nil, List.length_replicate, List.sum_cons, List.sum_nil]
        norm_num)
  exact ⟨htemp, hfinal⟩

/-- C7.  When an upload returns a descriptor, its `size` field is the exact
sum of the chunk lengths read from the source (equivalently the length of
the byte stream), never exceeds the 500 MiB maximum, and its `md5` field is
the digest function applied to exactly those bytes in order — the same
value an independent one-shot digest of the stream produces. -/
theorem upload_single_file_descriptor_exact (H : List Nat → List Nat)
    (filename nonce : String) (chunks : List (List Nat))
    (hne : ∀ c ∈ chunks, c ≠ []) (d : UploadDescriptor)
    (hok : (upload_single_file H filename nonce chunks).result = .ok d) :
    d.size = sumLen chunks ∧ d.size = chunks.flatten.length ∧
      d.size ≤ Settings.MAX_FILE_SIZE ∧ d.md5 = H chunks.flatten ∧
      (upload_single_file H filename nonce chunks).final =
        some chunks.flatten := by
  by_cases hbig : Settings.MAX_FILE_SIZE < sumLen chunks
  · obtain ⟨preC, c', postC, _, hrun, _, _⟩ :=
      readChunks_overflow Settings.MAX_FILE_SIZE chunks 0 [] 0 hne
        (Nat.zero_le _) (by simpa using hbig)
    unfold upload_single_file at hok
    rw [hrun] at hok
    simp at hok
  · have hle : sumLen chunks ≤ Settings.MAX_FILE_SIZE := by omega
    have hrun := readChunks_done Settings.MAX_FILE_SIZE chunks 0 [] 0 hne
      (by simpa using hle)
    rw [show (0 : Nat) + sumLen chunks = sumLen chunks by omega] at hrun
    have hout :
        upload_single_file H filename nonce chunks =
          { result := .ok ⟨filename, nonce ++ "_" ++ filename,
              "uploads/" ++ (nonce ++ "_" ++ filename), sumLen chunks,
              H chunks.flatten⟩,
            temp := none, final := some chunks.flatten,
            consumed := 0 + chunks.length } := by
      unfold upload_single_file
      rw [hrun]
      simp
    rw [hout] at hok ⊢
    simp only [Except.ok.injEq] at hok
    subst hok
    refine ⟨rfl, ?_, hle, rfl, rfl⟩
    show sumLen chunks = chunks.flatten.length
    simp [sumLen]

/-- Witness for C7 on a concrete 2-chunk stream, with the digest function
instantiated to the identity on byte streams. -/
theorem upload_single_file_descriptor_exact_witness :
    (3 : Nat) = sumLen [[1, 2], [3]] ∧ (3 : Nat) = [1, 2, 3].length ∧
      (3 : Nat) ≤ Settings.MAX_FILE_SIZE ∧
      [1, 2, 3] = (fun bs => bs) [1, 2, 3] ∧
      (upload_single_file (fun bs => bs) "a.zip" "n1" [[1, 2], [3]]).final =
        some [1, 2, 3] := by
  have h := upload_single_file_descriptor_exact (fun bs => bs) "a.zip" "n1"
    [[1, 2], [3]] (by decide)
    ⟨"a.zip", "n1_a.zip", "uploads/n1_a.zip", 3, [1, 2, 3]⟩ rfl
  simpa using h

/-- C4.  Every run of `ZipService.rezip_file` — success, extraction failure
of any class, empty extraction, or rebuild failure — removes the uniquely
named scratch directory it created: with a fresh `uuid4` token the final
directory state equals the initial one and does not contain the scratch
directory. -/
theorem rezip_file_scratch_removed (zf : ZipFileOnDisk) (output_path : String)
    (ep cp : Option String) (nonce : String) (buildFails : Bool)
    (dirs : List String) (hfresh : tempDirName nonce ∉ dirs) :
    (rezip_file zf output_path ep cp nonce buildFails dirs).snd = dirs ∧
      tempDirName nonce ∉
        (rezip_file zf output_path ep cp nonce buildFails dirs).snd := by
  have hsnd : (rezip_file zf output_path ep cp nonce buildFails dirs).snd
      = dirs := by
    unfold rezip_file
    simp
  exact ⟨hsnd, by rw [hsnd]; exact hfresh⟩

/-- Witness for C4: a concrete transform over a one-file container with a
fresh token leaves the directory state untouched, and likewise on the
empty-extraction failure path. -/
theorem rezip_file_scratch_removed_witness :
    (rezip_file (.valid ⟨[⟨"a.txt", [1]⟩], none⟩) "out.zip" none none "u1"
        false ["temp/extract_u0"]).snd = ["temp/extract_u0"] ∧
      (rezip_file .invalid "out.zip" none none "u2" false []).snd = [] :=
  ⟨(rezip_file_scratch_removed (.valid ⟨[⟨"a.txt", [1]⟩], none⟩) "out.zip"
      none none "u1" false ["temp/extract_u0"] (by decide)).1,
    (rezip_file_scratch_removed .invalid "out.zip" none none "u2" false []
      (by decide)).1⟩

/-- C9.  `paginator_list` is 1-indexed with defaults `page = 1`,
`page_size = 10`: the result is the `page_size`-item slice starting at
offset `(page - 1) * page_size`, and any page whose offset is at or past
the end of the list yields `[]` rather than an error. -/
theorem paginator_list_pagination {α : Type} (data : List α)
    (page size : Nat) (hp : 1 ≤ page) :
    (∀ i : Nat, i < size →
        (paginator_list data page size)[i]? = data[(page - 1) * size + i]?) ∧
      (data.length ≤ (page - 1) * size → paginator_list data page size = []) ∧
      paginator_list data = data.take 10 := by
  refine ⟨?_, ?_, ?_⟩
  · intro i hi
    simp only [paginator_list]
    rw [List.getElem?_take_of_lt hi, List.getElem?_drop]
  · intro h
    simp only [paginator_list]
    rw [List.drop_eq_nil_of_le h]
    simp
  · simp only [paginator_list]
    simp

/-- Witness for C9: page 2 of size 2 over a 3-element list is its last
element, and page 4 is out of range and yields the empty slice. -/
theorem paginator_list_pagination_witness :
    (paginator_list [10, 20, 30] 2 2)[0]? = ([10, 20, 30] : List Nat)[2]? ∧
      paginator_list ([10, 20, 30] : List Nat) 4 2 = [] :=
  ⟨(paginator_list_pagination [10, 20, 30] 2 2 (by decide)).1 0 (by decide),
    (paginator_list_pagination [10, 20, 30] 4 2 (by decide)).2.1 (by decide)⟩

/-! ## The `/compress` batch pipeline -/

theorem Compress.upload_single_file_ok (f : UFile) (nonce : String)
    (disk : List (String × List Nat)) (hne : ∀ c ∈ f.chunks, c ≠ [])
    (hle : sumLen f.chunks ≤ Compress.MAX_FILE_SIZE) :
    Compress.upload_single_file f nonce disk =
      .ok (nonce ++ "_" ++ f.filename,
        disk ++ [("uploads/" ++ (nonce ++ "_" ++ f.filename),
          f.chunks.flatten)]) := by
  unfold Compress.upload_single_file
  rw [readChunks_done Compress.MAX_FILE_SIZE f.chunks 0 [] 0 hne
    (by simpa using hle)]
  simp

theorem Compress.taskLoop_failfast :
    ∀ (pre : List UFile) (bad : UFile) (post : List UFile)
      (nonces : List String) (acc : List String)
      (disk : List (String × List Nat)) (err : String),
      (∀ f ∈ pre, Compress.validate_file f = none ∧
        (∀ c ∈ f.chunks, c ≠ []) ∧
        sumLen f.chunks ≤ Compress.MAX_FILE_SIZE) →
      Compress.validate_file bad = some err →
      Compress.taskLoop (pre ++ bad :: post) nonces acc disk =
        (.error (400, err), disk ++ Compress.committedFiles pre nonces) := by
  intro pre
  induction pre with
  | nil =>
    intro bad post nonces acc disk err _ hbad
    show Compress.taskLoop (bad :: post) nonces acc disk = _
    rw [Compress.taskLoop, hbad]
    simp [Compress.committedFiles]
  | cons f rest ih =>
    intro bad post nonces acc disk err hpre hbad
    obtain ⟨hv, hne, hle⟩ := hpre f (List.mem_cons_self _ _)
    rw [List.cons_append, Compress.taskLoop, hv,
      Compress.upload_single_file_ok f (nonces.headD "") disk hne hle]
    show Compress.taskLoop (rest ++ bad :: post) nonces.tail
        ((nonces.headD "" ++ "_" ++ f.filename) :: acc)
        (disk ++ [("uploads/" ++ (nonces.headD "" ++ "_" ++ f.filename),
          f.chunks.flatten)]) = _
    rw [ih bad post nonces.tail _ _ err
      (fun x hx => hpre x (List.mem_cons_of_mem _ hx)) hbad]
    simp [Compress.committedFiles, String.append_assoc]

/-- C2 (amended).  In `add_compress_task`, validation and upload are
interleaved per file: each file's validation checks (empty name or
advertised size 0, advertised-size cap, extension allow-list) complete, and
any failure surfaces as a 400, before that file's own bytes are written —
but files earlier in the batch are already committed at that point and are
not cleaned up (`except HTTPException: raise` skips cleanup).  No
duplicate-name and no file-count check is performed by the endpoint
(`FileService.validate_file_queue`, which performs both before any write,
is never invoked by any route), so a batch of two files both named `a.zip`
is accepted in full; see the counterexample. -/
theorem add_compress_task_per_file_failfast (pre : List UFile) (bad : UFile)
    (post : List UFile) (nonces : List String) (err : String)
    (hpre : ∀ f ∈ pre, Compress.validate_file f = none ∧
      (∀ c ∈ f.chunks, c ≠ []) ∧
      sumLen f.chunks ≤ Compress.MAX_FILE_SIZE)
    (hbad : Compress.validate_file bad = some err) :
    Compress.add_compress_task (pre ++ bad :: post) nonces =
      (.error (400, err), Compress.committedFiles pre nonces) := by
  unfold Compress.add_compress_task
  rw [if_neg (by simp)]
  rw [Compress.taskLoop_failfast pre bad post nonces [] [] err hpre hbad]
  simp

/-- Witness for the amended C2: a batch of one valid `a.zip` followed by a
nameless empty file is rejected with 400, with the valid file already on
disk. -/
theorem add_compress_task_per_file_failfast_witness :
    Compress.add_compress_task [⟨"a.zip", 1, [[1]]⟩, ⟨"", 0, []⟩]
        ["n1", "n2"] =
      (.error (400, "检测到空文件: 无文件名"), [("uploads/n1_a.zip", [1])]) := by
  have h := add_compress_task_per_file_failfast [⟨"a.zip", 1, [[1]]⟩]
    ⟨"", 0, []⟩ [] ["n1", "n2"] "检测到空文件: 无文件名"
    (by
      intro f hf
      simp only [List.mem_singleton] at hf
      subst hf
      exact ⟨rfl, by decide, by decide⟩)
    rfl
  exact h

/-- C2 counterexample.  A batch containing two files both named `a.zip` is
not rejected: `add_compress_task` returns success and both files are
committed to the upload directory — the duplicate-name check claimed by the
batch contract does not exist on the executed path. -/
theorem add_compress_task_duplicate_accepted :
    Compress.add_compress_task [⟨"a.zip", 1, [[1]]⟩, ⟨"a.zip", 1, [[2]]⟩]
        ["n1", "n2"] =
      (.ok ["n1_a.zip", "n2_a.zip"],
        [("uploads/n1_a.zip", [1]), ("uploads/n2_a.zip", [2])]) := rfl

/-- C8 (code bug).  `get_file_extension` keeps only the last dot-suffix, so
`x.tar.gz` yields `.gz`, which is not in the allow-list — the file is
rejected even though `.tar.gz` is in `ALLOWED_FILE_TYPES` and the endpoint
advertises tar.gz support: the multi-part entries of the allow-list are
unreachable. -/
theorem tar_gz_rejected_despite_allowlist :
    get_file_extension "x.tar.gz" = ".gz" ∧
      ".tar.gz" ∈ Compress.ALLOWED_FILE_TYPES ∧
      ".gz" ∉ Compress.ALLOWED_FILE_TYPES ∧
      Compress.validate_file ⟨"x.tar.gz", 1, [[1]]⟩ =
        some ("不支持的文件类型: .gz") :=
  ⟨rfl, by decide, by decide, rfl⟩

end Batchzip
